import Mathlib

/-!
Verification development for the HEIC-to-JPG batch normalizer
(`convert_heic_to_jpg.py`): the functions `convert_and_rename_heic_to_jpg`
and `rename_jpg_files`.

Modelling conventions:
* A file name is a `List Char`; a class folder's contents is a `List` of
  names (the filesystem is treated as a set, so `Nodup` hypotheses appear
  where the claims need them).
* `pathlib` globs are modelled with POSIX (case-sensitive) semantics:
  `*.jpg` matches exactly the names ending in the four characters `.jpg`.
* Decode/encode/IO failure of a single HEIC file is an oracle
  `ok : Name → Bool`; a file vanishing externally between the successful
  save and the `unlink` call is an oracle `vanish : Name → Bool`.
* External interference with the rename pass is modelled by running the
  scan on a snapshot `scanFs` and the action loop on the live contents
  `liveFs` (a file in `scanFs \ liveFs` vanished between scan and action;
  a file in `liveFs \ scanFs` was created externally after the scan).
-/

abbrev Name := List Char

/-- Boolean test that `p` is a prefix of `n`. -/
def isPre : Name → Name → Bool
  | [], _ => true
  | _ :: _, [] => false
  | a :: as, b :: bs => a = b && isPre as bs

/-- Strip the prefix `p` from `n`, if `p` is a prefix of `n`. -/
def stripPre : Name → Name → Option Name
  | [], n => some n
  | _ :: _, [] => none
  | a :: as, b :: bs => if a = b then stripPre as bs else none

/-- Boolean test that `s` is a suffix of `n`. -/
def hasSuffix (s n : Name) : Bool := isPre s.reverse n.reverse

/-- Strip the suffix `s` from `n`, if `s` is a suffix of `n`. -/
def stripSuf (s n : Name) : Option Name :=
  (stripPre s.reverse n.reverse).map List.reverse

theorem stripPre_eq_some {p n r : Name} : stripPre p n = some r ↔ n = p ++ r := by
  induction p generalizing n with
  | nil => simp [stripPre]
  | cons a as ih =>
    cases n with
    | nil => simp [stripPre]
    | cons b bs =>
      by_cases hab : a = b
      · subst hab
        simp [stripPre, ih]
      · simp [stripPre, hab, Ne.symm hab]

theorem stripSuf_eq_some {s n r : Name} : stripSuf s n = some r ↔ n = r ++ s := by
  unfold stripSuf
  constructor
  · intro h
    match hx : stripPre s.reverse n.reverse with
    | none => rw [hx] at h; simp at h
    | some t =>
      rw [hx] at h
      simp at h
      rw [stripPre_eq_some] at hx
      have := congrArg List.reverse hx
      simpa [← h] using this
  · intro h
    subst h
    have hx : stripPre s.reverse (r ++ s).reverse = some r.reverse := by
      rw [stripPre_eq_some]; simp
    rw [hx]
    simp

theorem isPre_iff {p n : Name} : isPre p n = true ↔ ∃ r, n = p ++ r := by
  induction p generalizing n with
  | nil => simp [isPre]
  | cons a as ih =>
    cases n with
    | nil => simp [isPre]
    | cons b bs =>
      by_cases hab : a = b
      · subst hab
        rw [show isPre (a :: as) (a :: bs) = isPre as bs by simp [isPre], ih]
        constructor
        · rintro ⟨r, hr⟩; exact ⟨r, by rw [hr]; rfl⟩
        · rintro ⟨r, hr⟩; exact ⟨r, by simpa using hr⟩
      · simp only [isPre, decide_eq_true_eq, Bool.and_eq_true]
        constructor
        · rintro ⟨hab', _⟩; exact absurd hab' hab
        · rintro ⟨r, hr⟩
          simp only [List.cons_append, List.cons.injEq] at hr
          exact absurd hr.1.symm hab

theorem hasSuffix_iff {s n : Name} : hasSuffix s n = true ↔ ∃ r, n = r ++ s := by
  unfold hasSuffix
  rw [isPre_iff]
  constructor
  · rintro ⟨r, hr⟩
    refine ⟨r.reverse, ?_⟩
    have := congrArg List.reverse hr
    simpa using this
  · rintro ⟨r, hr⟩
    exact ⟨r.reverse, by simp [hr]⟩

/-! Character-level facts about `Char.toLower` (used to interpret the
`re.IGNORECASE` matching of the canonical-name regex). -/

theorem toNat_ofNat_valid {n : Nat} (h : n.isValidChar) : (Char.ofNat n).toNat = n := by
  unfold Char.ofNat
  rw [dif_pos h]
  rfl

theorem isDigit_iff_toNat {c : Char} : c.isDigit = true ↔ 48 ≤ c.toNat ∧ c.toNat ≤ 57 := by
  simp [Char.isDigit, UInt32.le_def, BitVec.le_def, Char.toNat, UInt32.toNat]

theorem isDigit_toLower (c : Char) : (Char.toLower c).isDigit = c.isDigit := by
  show (if c.toNat ≥ 65 ∧ c.toNat ≤ 90 then Char.ofNat (c.toNat + 32) else c).isDigit = c.isDigit
  split
  next h =>
    have hv : (c.toNat + 32).isValidChar := by
      left
      omega
    have h1 : (Char.ofNat (c.toNat + 32)).toNat = c.toNat + 32 := toNat_ofNat_valid hv
    have h2 : (Char.ofNat (c.toNat + 32)).isDigit = false := by
      rw [← Bool.not_eq_true]
      intro hd
      rw [isDigit_iff_toNat] at hd
      omega
    have h3 : c.isDigit = false := by
      rw [← Bool.not_eq_true]
      intro hd
      rw [isDigit_iff_toNat] at hd
      omega
    rw [h2, h3]
  next => rfl

theorem toLower_of_isDigit {c : Char} (h : c.isDigit = true) : Char.toLower c = c := by
  show (if c.toNat ≥ 65 ∧ c.toNat ≤ 90 then Char.ofNat (c.toNat + 32) else c) = c
  rw [isDigit_iff_toNat] at h
  rw [if_neg]
  omega

/-! Digit parsing.  `int(re.search(r'\d+', name).group())` takes the first
maximal run of decimal digits in the name and reads it as an integer. -/

/-- Value of a run of decimal digit characters, as `int` reads it. -/
def digitsToNat (ds : Name) : Nat := ds.foldl (fun a c => a * 10 + (c.toNat - 48)) 0

/-- First maximal run of decimal digits in a name (`re.search(r'\d+', ·)`). -/
def firstDigits : Name → Name
  | [] => []
  | c :: cs => if c.isDigit then c :: cs.takeWhile Char.isDigit else firstDigits cs

/-- Whether the name contains any decimal digit (`re.search(r'\d+', ·)` succeeds). -/
def hasDigit (n : Name) : Bool := n.any Char.isDigit

/-- Parse of `convert_and_rename_heic_to_jpg` line 132: the first digit run of a
name, when the name has one. -/
def firstNum (n : Name) : Option Nat :=
  if hasDigit n then some (digitsToNat (firstDigits n)) else none

/-- Decimal digit characters of `n`, as produced by Python `str(n)` for a
natural number (no sign, no leading zeros, `"0"` for zero).  The first
argument is recursion fuel; `natToChars` supplies enough. -/
def natToCharsAux : Nat → Nat → Name
  | 0, _ => []
  | fuel + 1, n =>
    if n < 10 then [Nat.digitChar n]
    else natToCharsAux fuel (n / 10) ++ [Nat.digitChar (n % 10)]

/-- Python `str(n)` for a natural number `n`, as a list of characters. -/
def natToChars (n : Nat) : Name := natToCharsAux (n + 1) n

/-- Target name `f"{label}{k}.jpg"` built by both passes (labels are already
lowercased at these call sites). -/
def mkName (labL : Name) (k : Nat) : Name := labL ++ natToChars k ++ ".jpg".data

/-! Globs, modelled with POSIX (case-sensitive) matching. -/

/-- Membership in `class_dir.glob("*.jpg") ∪ class_dir.glob("*.JPG")`
(`rename_jpg_files` line 43). -/
def jpgGlob (n : Name) : Bool := hasSuffix ".jpg".data n || hasSuffix ".JPG".data n

/-- Membership in `class_dir.glob("*.HEIC") ++ class_dir.glob("*.heic")`
(`convert_and_rename_heic_to_jpg` line 121). -/
def heicGlob (n : Name) : Bool := hasSuffix ".HEIC".data n || hasSuffix ".heic".data n

/-- Membership in `class_dir.glob(f"{class_name.lower()}*.jpg")`
(`convert_and_rename_heic_to_jpg` line 130): lowercased label, then anything,
then `.jpg`. -/
def labelJpgGlob (labL n : Name) : Bool :=
  match stripPre labL n with
  | none => false
  | some r => hasSuffix ".jpg".data r

/-- Match of the case-insensitive canonical-name regex
`rf"^(label.lower())\d+\.jpg$"` with `re.IGNORECASE`
(`rename_jpg_files` line 49): the lowercased name is the lowercased label,
then one or more digits, then `.jpg`. -/
def isCanonicalL (labL n : Name) : Bool :=
  match stripPre labL (n.map Char.toLower) with
  | none => false
  | some r =>
    match stripSuf ".jpg".data r with
    | none => false
    | some ds => !ds.isEmpty && ds.all Char.isDigit

/-! Sorting, as Python `sorted` on paths inside one directory: lexicographic
comparison of the names by code point. -/

/-- Lexicographic order on names by code point, shorter-is-smaller on ties. -/
def nameLe : Name → Name → Bool
  | [], _ => true
  | _ :: _, [] => false
  | a :: as, b :: bs => if a = b then nameLe as bs else decide (a < b)

/-- Insert into a `nameLe`-sorted list. -/
def insertName (s : Name) : List Name → List Name
  | [] => [s]
  | t :: ts => if nameLe s t then s :: t :: ts else t :: insertName s ts

/-- Insertion sort by `nameLe`. -/
def sortNames : List Name → List Name
  | [] => []
  | s :: ss => insertName s (sortNames ss)

/-- Python `max` over a list of naturals, `0` when the list is empty. -/
def listMax (l : List Nat) : Nat := l.foldl max 0

/-! Model of `rename_jpg_files` (lines 25-95), one class folder at a time. -/

/-- State of one class folder while the rename loop runs: current folder
contents, the renames performed, and the two kinds of logged skips. -/
structure RenState where
  fs : List Name
  renamed : List (Name × Name)
  skippedVanished : List Name
  skippedCollision : List Name
deriving DecidableEq

/-- One iteration of the rename loop (lines 72-91): re-check the source still
exists (vanished files are skipped without consuming a number), advance the
counter, skip when the target name already exists (the number stays
consumed), otherwise rename.  The `try/except` around `jpg.rename` only
logs, so the rename itself is modelled as succeeding. -/
def renameStep (labL : Name) (acc : RenState × Nat) (src : Name) : RenState × Nat :=
  let (st, m) := acc
  if src ∈ st.fs then
    let tgt := mkName labL (m + 1)
    if tgt ∈ st.fs then
      ({ st with skippedCollision := st.skippedCollision ++ [src] }, m + 1)
    else
      ({ st with fs := st.fs.erase src ++ [tgt],
                 renamed := st.renamed ++ [(src, tgt)] }, m + 1)
  else
    ({ st with skippedVanished := st.skippedVanished ++ [src] }, m)

/-- The rename loop over the sorted to-rename list. -/
def renameLoop (labL : Name) (srcs : List Name) (acc : RenState × Nat) : RenState × Nat :=
  srcs.foldl (renameStep labL) acc

/-- Highest suffix among already-canonical files of the scan (lines 49-69):
`0` when there are none.  The parse is the first digit run of the original
name, as in line 54. -/
def renameMaxNum (labL : Name) (scanFs : List Name) : Nat :=
  listMax (((scanFs.filter jpgGlob).filter (isCanonicalL labL)).map
    (fun n => digitsToNat (firstDigits n)))

/-- One class folder of `rename_jpg_files`: scan `scanFs` (the snapshot the
globs saw), then run the loop against `liveFs` (the contents at action time;
external processes may have changed them in between). -/
def renameFolder (lab : Name) (scanFs liveFs : List Name) : RenState × Nat :=
  let labL := lab.map Char.toLower
  let toRen := (scanFs.filter jpgGlob).filter (fun n => !isCanonicalL labL n)
  renameLoop labL (sortNames toRen) (⟨liveFs, [], [], []⟩, renameMaxNum labL scanFs)

/-- Root dataset directory: contents of the three class folders, `none` when
the folder does not exist (such a folder is logged and skipped). -/
structure Root where
  good : Option (List Name)
  bad : Option (List Name)
  ugly : Option (List Name)
deriving DecidableEq

/-- Label strings of the fixed class-folder list. -/
def GoodLab : Name := "Good".data

/-- Label string of the second class folder. -/
def BadLab : Name := "Bad".data

/-- Label string of the third class folder. -/
def UglyLab : Name := "Ugly".data

/-- One class folder of the top-level rename pass, without external
interference (scan and action see the same contents). -/
def renameDir (lab : Name) : Option (List Name) → Option (List Name)
  | none => none
  | some fs => some ((renameFolder lab fs fs).1.fs)

/-- Top level of `rename_jpg_files` (lines 25-95) over the root directory. -/
def rename_jpg_files (root : Root) : Root :=
  ⟨renameDir GoodLab root.good, renameDir BadLab root.bad, renameDir UglyLab root.ugly⟩

/-! Model of `convert_and_rename_heic_to_jpg` (lines 98-166). -/

/-- State of one class folder while the convert loop runs: current folder
contents, the log of performed conversions, and the three counters. -/
structure ConvState where
  fs : List Name
  convLog : List (Name × Name)
  converted : Nat
  deleted : Nat
  errors : Nat
deriving DecidableEq

/-- One iteration of the convert loop (lines 138-157).  `ok heic` says the
open/convert/save of this file succeeds; on failure the error is counted and
the counter is not advanced.  After a successful save the original is
unlinked when deletion is enabled; `vanish heic` says the original
disappeared externally before the unlink, in which case the unlink raises
and the `except` counts an error (the conversion was already counted).
`img.save` overwrites silently, so the saved name joins the folder contents
only when not already present. -/
def convertStep (labL : Name) (delete : Bool) (ok vanish : Name → Bool)
    (acc : ConvState × Nat) (heic : Name) : ConvState × Nat :=
  let (s, m) := acc
  if ok heic then
    let tgt := mkName labL m
    let fsSaved := if tgt ∈ s.fs then s.fs else s.fs ++ [tgt]
    let s1 : ConvState :=
      { s with fs := fsSaved, convLog := s.convLog ++ [(heic, tgt)],
               converted := s.converted + 1 }
    if delete then
      if vanish heic then
        ({ s1 with fs := s1.fs.erase heic, errors := s1.errors + 1 }, m + 1)
      else
        ({ s1 with fs := s1.fs.erase heic, deleted := s1.deleted + 1 }, m + 1)
    else
      (s1, m + 1)
  else
    ({ s with errors := s.errors + 1 }, m)

/-- The convert loop over the sorted HEIC list. -/
def convertLoop (labL : Name) (delete : Bool) (ok vanish : Name → Bool)
    (hs : List Name) (acc : ConvState × Nat) : ConvState × Nat :=
  hs.foldl (convertStep labL delete ok vanish) acc

/-- Starting number of the convert pass (lines 129-135): one past the largest
first-digit-run among files matching `glob(f"{label.lower()}*.jpg")`, or `1`
when no matching file has a digit. -/
def convertNextNum (labL : Name) (fs : List Name) : Nat :=
  let nums := (fs.filter (labelJpgGlob labL)).filterMap firstNum
  if nums.isEmpty then 1 else listMax nums + 1

/-- One class folder of the convert pass (lines 110-157): when no HEIC file
matches, the folder is reported and left unchanged. -/
def convertFolder (lab : Name) (delete : Bool) (ok vanish : Name → Bool)
    (fs : List Name) : ConvState :=
  let labL := lab.map Char.toLower
  let heics := sortNames (fs.filter heicGlob)
  if heics.isEmpty then ⟨fs, [], 0, 0, 0⟩
  else (convertLoop labL delete ok vanish heics (⟨fs, [], 0, 0, 0⟩, convertNextNum labL fs)).1

/-- One class folder at top level: a missing folder is skipped and
contributes nothing to the counters. -/
def convertDir (lab : Name) (delete : Bool) (ok vanish : Name → Bool) :
    Option (List Name) → Option (List Name) × Nat × Nat × Nat
  | none => (none, 0, 0, 0)
  | some fs =>
    let r := convertFolder lab delete ok vanish fs
    (some r.fs, r.converted, r.deleted, r.errors)

/-- Top level of `convert_and_rename_heic_to_jpg` (lines 98-166): process the
three class folders in order and return the new contents together with the
aggregate `(converted, deleted, errors)` triple of line 166. -/
def convert_and_rename_heic_to_jpg (root : Root) (delete : Bool)
    (ok vanish : Name → Bool) : Root × Nat × Nat × Nat :=
  let g := convertDir GoodLab delete ok vanish root.good
  let b := convertDir BadLab delete ok vanish root.bad
  let u := convertDir UglyLab delete ok vanish root.ugly
  (⟨g.1, b.1, u.1⟩, g.2.1 + b.2.1 + u.2.1, g.2.2.1 + b.2.2.1 + u.2.2.1,
    g.2.2.2 + b.2.2.2 + u.2.2.2)

/-! Facts about decimal printing (`str(n)`). -/

theorem digitChar_toNat : ∀ d : Nat, d < 10 → (Nat.digitChar d).toNat = 48 + d := by
  decide

theorem digitChar_isDigit : ∀ d : Nat, d < 10 → (Nat.digitChar d).isDigit = true := by
  decide

theorem digitsToNat_concat (xs : Name) (c : Char) :
    digitsToNat (xs ++ [c]) = digitsToNat xs * 10 + (c.toNat - 48) := by
  unfold digitsToNat
  rw [List.foldl_append]
  rfl

theorem digitsToNat_natToCharsAux : ∀ fuel n : Nat, n < fuel →
    digitsToNat (natToCharsAux fuel n) = n := by
  intro fuel
  induction fuel with
  | zero => intro n h; omega
  | succ f ih =>
    intro n h
    unfold natToCharsAux
    split
    next hlt =>
      show digitsToNat ([] ++ [Nat.digitChar n]) = n
      rw [digitsToNat_concat]
      have := digitChar_toNat n hlt
      simp [digitsToNat]
      omega
    next hge =>
      rw [digitsToNat_concat]
      have h10 : 10 ≤ n := by omega
      have hdiv : n / 10 < f := by
        have := Nat.div_lt_self (by omega : 0 < n) (by omega : 1 < 10)
        omega
      rw [ih (n / 10) hdiv]
      have := digitChar_toNat (n % 10) (Nat.mod_lt n (by omega))
      omega

theorem digitsToNat_natToChars (n : Nat) : digitsToNat (natToChars n) = n :=
  digitsToNat_natToCharsAux (n + 1) n (Nat.lt_succ_self n)

theorem natToChars_inj {a b : Nat} (h : natToChars a = natToChars b) : a = b := by
  have := digitsToNat_natToChars a
  rw [h, digitsToNat_natToChars] at this
  omega

theorem natToCharsAux_all_digits : ∀ fuel n : Nat,
    (natToCharsAux fuel n).all Char.isDigit = true := by
  intro fuel
  induction fuel with
  | zero => intro n; rfl
  | succ f ih =>
    intro n
    unfold natToCharsAux
    split
    next hlt => simp [digitChar_isDigit n hlt]
    next hge =>
      rw [List.all_append]
      have := digitChar_isDigit (n % 10) (Nat.mod_lt n (by omega))
      simp [ih (n / 10), this]

theorem natToChars_all_digits (n : Nat) : (natToChars n).all Char.isDigit = true :=
  natToCharsAux_all_digits (n + 1) n

theorem natToCharsAux_ne_nil : ∀ fuel n : Nat, n < fuel → natToCharsAux fuel n ≠ [] := by
  intro fuel
  cases fuel with
  | zero => intro n h; omega
  | succ f =>
    intro n _
    unfold natToCharsAux
    split
    · simp
    · simp

theorem natToChars_ne_nil (n : Nat) : natToChars n ≠ [] :=
  natToCharsAux_ne_nil (n + 1) n (Nat.lt_succ_self n)

/-! Facts about the target names `mkName`. -/

theorem mkName_inj {labL : Name} {i j : Nat} (h : mkName labL i = mkName labL j) :
    i = j := by
  unfold mkName at h
  have hlen0 : (labL ++ natToChars i).length = (labL ++ natToChars j).length := by
    have h2 := congrArg List.length h
    simp only [List.length_append] at h2 ⊢
    omega
  have h1 : labL ++ natToChars i = labL ++ natToChars j := (List.append_inj h hlen0).1
  have hlen : (natToChars i).length = (natToChars j).length := by
    have h2 := congrArg List.length h1
    simp only [List.length_append] at h2
    omega
  exact natToChars_inj (List.append_inj' h1 hlen).2

theorem mkName_getLast? (labL : Name) (k : Nat) :
    (mkName labL k).getLast? = some 'g' := by
  have h1 : mkName labL k = (labL ++ natToChars k ++ ['.', 'j', 'p']) ++ ['g'] := by
    unfold mkName
    have h2 : (".jpg".data : Name) = ['.', 'j', 'p'] ++ ['g'] := rfl
    rw [h2]
    simp
  rw [h1, List.getLast?_concat]

theorem heicGlob_ne_mkName {h labL : Name} {k : Nat} (hh : heicGlob h = true) :
    h ≠ mkName labL k := by
  intro he
  unfold heicGlob at hh
  rw [Bool.or_eq_true] at hh
  have hlast : h.getLast? = some 'g' := by rw [he, mkName_getLast?]
  rcases hh with hH | hL
  · rw [hasSuffix_iff] at hH
    obtain ⟨r', hr'⟩ := hH
    have h3 : (".HEIC".data : Name) = ['.', 'H', 'E', 'I'] ++ ['C'] := rfl
    rw [hr', h3, ← List.append_assoc, List.getLast?_concat] at hlast
    simp at hlast
  · rw [hasSuffix_iff] at hL
    obtain ⟨r', hr'⟩ := hL
    have h3 : (".heic".data : Name) = ['.', 'h', 'e', 'i'] ++ ['c'] := rfl
    rw [hr', h3, ← List.append_assoc, List.getLast?_concat] at hlast
    simp at hlast

theorem heicGlob_mkName (labL : Name) (k : Nat) : heicGlob (mkName labL k) = false := by
  rw [← Bool.not_eq_true]
  intro hh
  exact heicGlob_ne_mkName hh rfl

/-! Facts about `sortNames`. -/

theorem insertName_perm (s : Name) (l : List Name) :
    List.Perm (insertName s l) (s :: l) := by
  induction l with
  | nil => exact List.Perm.refl _
  | cons t ts ih =>
    unfold insertName
    split
    · exact List.Perm.refl _
    · exact (ih.cons t).trans (List.Perm.swap s t ts)

theorem sortNames_perm (l : List Name) : List.Perm (sortNames l) l := by
  induction l with
  | nil => exact List.Perm.refl _
  | cons s ss ih =>
    unfold sortNames
    exact (insertName_perm s (sortNames ss)).trans (ih.cons s)

theorem mem_sortNames {x : Name} {l : List Name} : x ∈ sortNames l ↔ x ∈ l :=
  (sortNames_perm l).mem_iff

theorem sortNames_nodup {l : List Name} (h : l.Nodup) : (sortNames l).Nodup :=
  ((sortNames_perm l).nodup_iff).mpr h

/-! Facts about erasing a batch of names. -/

theorem erase_append_singleton {fs : List Name} {c h : Name} (hne : h ≠ c) :
    (fs ++ [c]).erase h = fs.erase h ++ [c] := by
  by_cases hm : h ∈ fs
  · exact List.erase_append_left _ hm
  · have hno : h ∉ fs ++ [c] := by simp [hm, hne]
    rw [List.erase_of_not_mem hno, List.erase_of_not_mem hm]

theorem foldl_erase_append_singleton : ∀ (t : List Name) (A : List Name) (c : Name),
    (∀ h ∈ t, h ≠ c) → t.foldl List.erase (A ++ [c]) = t.foldl List.erase A ++ [c] := by
  intro t
  induction t with
  | nil => intro A c _; rfl
  | cons h tl ih =>
    intro A c hne
    simp only [List.foldl_cons]
    rw [erase_append_singleton (hne h (by simp))]
    exact ih _ c (fun x hx => hne x (by simp [hx]))

theorem foldl_erase_eq_filter : ∀ (hs fs : List Name), fs.Nodup →
    hs.foldl List.erase fs = fs.filter (fun a => !hs.contains a) := by
  intro hs
  induction hs with
  | nil => intro fs _; simp
  | cons h t ih =>
    intro fs hnd
    simp only [List.foldl_cons]
    rw [List.Nodup.erase_eq_filter hnd h, ih _ (hnd.filter _), List.filter_filter]
    apply List.filter_congr
    intro a _
    simp only [List.contains_cons]
    cases hah : a == h
    · simp
      intro _ he
      rw [he] at hah
      simp at hah
    · simp
      intro _
      exact eq_of_beq hah

theorem foldl_erase_heics {fs : List Name} (hnd : fs.Nodup) :
    (sortNames (fs.filter heicGlob)).foldl List.erase fs
      = fs.filter (fun a => !heicGlob a) := by
  rw [foldl_erase_eq_filter _ _ hnd]
  apply List.filter_congr
  intro a ha
  have hmem : a ∈ sortNames (fs.filter heicGlob) ↔ heicGlob a = true := by
    rw [mem_sortNames, List.mem_filter]
    simp [ha]
  cases hh : heicGlob a
  · have : a ∉ sortNames (fs.filter heicGlob) := fun hx => by
      rw [hmem] at hx
      rw [hx] at hh
      cases hh
    simp [this]
  · have : a ∈ sortNames (fs.filter heicGlob) := hmem.mpr hh
    simp [this]

/-! Counter bookkeeping of the convert loop: every HEIC file in the list is
processed, successes and failures are tallied, and no failure stops the
loop. -/

theorem convertStep_converted (labL : Name) (delete : Bool) (ok vanish : Name → Bool)
    (s : ConvState) (m : Nat) (h : Name) :
    (convertStep labL delete ok vanish (s, m) h).1.converted
      = s.converted + (if ok h then 1 else 0) := by
  cases hok : ok h <;> cases hdel : delete <;> cases hv : vanish h <;>
    simp [convertStep, hok, hdel, hv]

theorem convertStep_deleted (labL : Name) (delete : Bool) (ok vanish : Name → Bool)
    (s : ConvState) (m : Nat) (h : Name) :
    (convertStep labL delete ok vanish (s, m) h).1.deleted
      = s.deleted + (if delete && (ok h && !vanish h) then 1 else 0) := by
  cases hok : ok h <;> cases hdel : delete <;> cases hv : vanish h <;>
    simp [convertStep, hok, hdel, hv]

theorem convertStep_errors (labL : Name) (delete : Bool) (ok vanish : Name → Bool)
    (s : ConvState) (m : Nat) (h : Name) :
    (convertStep labL delete ok vanish (s, m) h).1.errors
      = s.errors + (if !ok h || (delete && vanish h) then 1 else 0) := by
  cases hok : ok h <;> cases hdel : delete <;> cases hv : vanish h <;>
    simp [convertStep, hok, hdel, hv]

theorem convertLoop_counts (labL : Name) (delete : Bool) (ok vanish : Name → Bool) :
    ∀ (hs : List Name) (s : ConvState) (m : Nat),
      (convertLoop labL delete ok vanish hs (s, m)).1.converted
          = s.converted + hs.countP (fun h => ok h)
      ∧ (convertLoop labL delete ok vanish hs (s, m)).1.deleted
          = s.deleted + hs.countP (fun h => delete && (ok h && !vanish h))
      ∧ (convertLoop labL delete ok vanish hs (s, m)).1.errors
          = s.errors + hs.countP (fun h => !ok h || (delete && vanish h)) := by
  intro hs
  induction hs with
  | nil =>
    intro s m
    refine ⟨?_, ?_, ?_⟩ <;> simp [convertLoop]
  | cons h t ih =>
    intro s m
    have hstep : convertLoop labL delete ok vanish (h :: t) (s, m)
        = convertLoop labL delete ok vanish t
            ((convertStep labL delete ok vanish (s, m) h).1,
             (convertStep labL delete ok vanish (s, m) h).2) := rfl
    obtain ⟨i1, i2, i3⟩ := ih (convertStep labL delete ok vanish (s, m) h).1
        (convertStep labL delete ok vanish (s, m) h).2
    rw [hstep]
    refine ⟨?_, ?_, ?_⟩
    · rw [i1, convertStep_converted, List.countP_cons]
      cases hok : ok h <;> simp [hok] <;> omega
    · rw [i2, convertStep_deleted, List.countP_cons]
      cases hdel : delete <;> cases hok : ok h <;> cases hv : vanish h <;>
        simp [hdel, hok, hv] <;> omega
    · rw [i3, convertStep_errors, List.countP_cons]
      cases hdel : delete <;> cases hok : ok h <;> cases hv : vanish h <;>
        simp [hdel, hok, hv] <;> omega

theorem convertFolder_counts (lab : Name) (delete : Bool) (ok vanish : Name → Bool)
    (fs : List Name) :
    (convertFolder lab delete ok vanish fs).converted
        = (fs.filter heicGlob).countP (fun h => ok h)
    ∧ (convertFolder lab delete ok vanish fs).deleted
        = (fs.filter heicGlob).countP (fun h => delete && (ok h && !vanish h))
    ∧ (convertFolder lab delete ok vanish fs).errors
        = (fs.filter heicGlob).countP (fun h => !ok h || (delete && vanish h)) := by
  simp only [convertFolder]
  split
  next hemp =>
    have hnil : fs.filter heicGlob = [] := by
      have hp := sortNames_perm (fs.filter heicGlob)
      rw [List.isEmpty_iff] at hemp
      rw [hemp] at hp
      exact hp.symm.eq_nil
    simp [hnil]
  next hemp =>
    obtain ⟨i1, i2, i3⟩ := convertLoop_counts (lab.map Char.toLower) delete ok vanish
      (sortNames (fs.filter heicGlob)) ⟨fs, [], 0, 0, 0⟩
      (convertNextNum (lab.map Char.toLower) fs)
    have hcnt := (sortNames_perm (fs.filter heicGlob)).countP_eq
    refine ⟨?_, ?_, ?_⟩
    · rw [i1, hcnt]; simp
    · rw [i2, hcnt]; simp
    · rw [i3, hcnt]; simp

/-! Shape of a fully successful convert run with deletion enabled: sources
are erased, targets are appended in counter order, and the log pairs each
source with its target. -/

theorem convertLoop_clean (labL : Name) (ok vanish : Name → Bool) :
    ∀ (hs : List Name) (fs : List Name) (log : List (Name × Name)) (c d e m : Nat),
      (∀ h ∈ hs, ok h = true ∧ vanish h = false ∧ heicGlob h = true) →
      (∀ k, m ≤ k → mkName labL k ∉ fs) →
      convertLoop labL true ok vanish hs (⟨fs, log, c, d, e⟩, m)
        = (⟨hs.foldl List.erase fs
              ++ (List.range hs.length).map (fun i => mkName labL (m + i)),
            log ++ hs.zip ((List.range hs.length).map (fun i => mkName labL (m + i))),
            c + hs.length, d + hs.length, e⟩, m + hs.length) := by
  intro hs
  induction hs with
  | nil =>
    intro fs log c d e m _ _
    simp [convertLoop]
  | cons h t ih =>
    intro fs log c d e m hok hfree
    obtain ⟨hok1, hv1, hheic1⟩ := hok h (by simp)
    have htgt : mkName labL m ∉ fs := hfree m (Nat.le_refl m)
    have hne : h ≠ mkName labL m := heicGlob_ne_mkName hheic1
    have hstep : convertStep labL true ok vanish (⟨fs, log, c, d, e⟩, m) h
        = (⟨fs.erase h ++ [mkName labL m], log ++ [(h, mkName labL m)],
            c + 1, d + 1, e⟩, m + 1) := by
      simp [convertStep, hok1, hv1, htgt]
      exact erase_append_singleton hne
    have hloop : convertLoop labL true ok vanish (h :: t) (⟨fs, log, c, d, e⟩, m)
        = convertLoop labL true ok vanish t
            (⟨fs.erase h ++ [mkName labL m], log ++ [(h, mkName labL m)],
              c + 1, d + 1, e⟩, m + 1) := by
      show convertLoop labL true ok vanish t
          (convertStep labL true ok vanish (⟨fs, log, c, d, e⟩, m) h) = _
      rw [hstep]
    have hfree2 : ∀ k, m + 1 ≤ k → mkName labL k ∉ fs.erase h ++ [mkName labL m] := by
      intro k hk hmem
      rw [List.mem_append] at hmem
      rcases hmem with hmem | hmem
      · exact hfree k (by omega) (List.mem_of_mem_erase hmem)
      · rw [List.mem_singleton] at hmem
        have := mkName_inj hmem
        omega
    rw [hloop, ih _ _ _ _ _ _ (fun x hx => hok x (by simp [hx])) hfree2]
    have hneall : ∀ x ∈ t, x ≠ mkName labL m := fun x hx =>
      heicGlob_ne_mkName (hok x (by simp [hx])).2.2
    rw [foldl_erase_append_singleton t (fs.erase h) (mkName labL m) hneall]
    have hr : (List.range (t.length + 1)).map (fun i => mkName labL (m + i))
        = mkName labL m :: (List.range t.length).map (fun i => mkName labL (m + 1 + i)) := by
      rw [List.range_succ_eq_map, List.map_cons, List.map_map]
      refine congrArg₂ List.cons (by rw [Nat.add_zero]) ?_
      apply List.map_congr_left
      intro i _
      show mkName labL (m + (i + 1)) = mkName labL (m + 1 + i)
      have : m + (i + 1) = m + 1 + i := by omega
      rw [this]
    refine congrArg₂ Prod.mk ?_ (by simp; omega)
    simp only [List.foldl_cons, List.length_cons, hr, List.zip_cons_cons,
      List.append_assoc, List.singleton_append]
    have hc : c + 1 + t.length = c + (t.length + 1) := by omega
    have hd : d + 1 + t.length = d + (t.length + 1) := by omega
    rw [hc, hd]

/-! Facts about `listMax` (Python `max` with default 0). -/

theorem foldl_max_ge_init : ∀ (l : List Nat) (a : Nat), a ≤ l.foldl max a := by
  intro l
  induction l with
  | nil => intro a; exact Nat.le_refl a
  | cons x xs ih =>
    intro a
    exact Nat.le_trans (Nat.le_max_left a x) (ih (max a x))

theorem foldl_max_ge_mem : ∀ (l : List Nat) (a x : Nat), x ∈ l → x ≤ l.foldl max a := by
  intro l
  induction l with
  | nil => intro a x hx; cases hx
  | cons y ys ih =>
    intro a x hx
    rw [List.foldl_cons]
    rcases List.mem_cons.mp hx with hx | hx
    · subst hx
      exact Nat.le_trans (Nat.le_max_right a x) (foldl_max_ge_init ys (max a x))
    · exact ih (max a y) x hx

theorem le_listMax_of_mem {l : List Nat} {x : Nat} (hx : x ∈ l) : x ≤ listMax l :=
  foldl_max_ge_mem l 0 x hx

theorem listMax_cons (a : Nat) (as : List Nat) : listMax (a :: as) = as.foldl max a := by
  unfold listMax
  rw [List.foldl_cons, Nat.zero_max]

theorem listMax_eq_of_max? {l : List Nat} {M : Nat} (h : l.max? = some M) :
    listMax l = M := by
  cases l with
  | nil => simp [List.max?] at h
  | cons a as =>
    simp [List.max?] at h
    rw [listMax_cons, h]

/-! Facts about first digit runs in decomposed names. -/

theorem firstDigits_append_no_digit : ∀ (A r : Name), (∀ c ∈ A, c.isDigit = false) →
    firstDigits (A ++ r) = firstDigits r := by
  intro A
  induction A with
  | nil => intro r _; rfl
  | cons a as ih =>
    intro r hA
    have ha : a.isDigit = false := hA a (by simp)
    show firstDigits (a :: (as ++ r)) = firstDigits r
    simp only [firstDigits, ha]
    exact ih r (fun c hc => hA c (by simp [hc]))

theorem firstDigits_digits_append (B C : Name) (hBne : B ≠ [])
    (hB : ∀ c ∈ B, c.isDigit = true) (hC : ∀ c ∈ C.take 1, c.isDigit = false) :
    firstDigits (B ++ C) = B := by
  cases B with
  | nil => cases hBne rfl
  | cons b bs =>
    have hb : b.isDigit = true := hB b (by simp)
    show firstDigits (b :: (bs ++ C)) = b :: bs
    simp only [firstDigits, hb, if_true]
    refine congrArg (List.cons b) ?_
    rw [List.takeWhile_append_of_pos (fun c hc => hB c (by simp [hc]))]
    have hCt : C.takeWhile Char.isDigit = [] := by
      cases C with
      | nil => rfl
      | cons c0 cs =>
        have h0 := hC c0 (by simp)
        simp [List.takeWhile_cons, h0]
    rw [hCt, List.append_nil]

theorem hasDigit_of_append_digits {A B C : Name} (hBne : B ≠ [])
    (hB : ∀ c ∈ B, c.isDigit = true) : hasDigit (A ++ (B ++ C)) = true := by
  cases B with
  | nil => cases hBne rfl
  | cons b bs =>
    unfold hasDigit
    rw [List.any_eq_true]
    exact ⟨b, by simp, hB b (by simp)⟩

/-! Decomposition of a canonical name and its digit parse. -/

theorem isCanonicalL_decomp {labL n : Name} (h : isCanonicalL labL n = true) :
    ∃ ds, n.map Char.toLower = labL ++ (ds ++ ".jpg".data) ∧ ds ≠ [] ∧
      ∀ c ∈ ds, c.isDigit = true := by
  unfold isCanonicalL at h
  cases hsp : stripPre labL (n.map Char.toLower) with
  | none => rw [hsp] at h; cases h
  | some r =>
    rw [hsp] at h
    replace h : (match stripSuf ".jpg".data r with
      | none => false
      | some ds => !ds.isEmpty && ds.all Char.isDigit) = true := h
    cases hss : stripSuf ".jpg".data r with
    | none => rw [hss] at h; cases h
    | some ds =>
      rw [hss] at h
      replace h : (!ds.isEmpty && ds.all Char.isDigit) = true := h
      rw [Bool.and_eq_true] at h
      refine ⟨ds, ?_, ?_, ?_⟩
      · rw [stripPre_eq_some] at hsp
        rw [stripSuf_eq_some] at hss
        rw [hsp, hss]
      · intro hnil
        rw [hnil] at h
        simp at h
      · intro c hc
        have h2 := h.2
        rw [List.all_eq_true] at h2
        exact h2 c hc

theorem isCanonicalL_of_decomp {labL n : Name} (ds : Name)
    (hdec : n.map Char.toLower = labL ++ (ds ++ ".jpg".data)) (hne : ds ≠ [])
    (hdig : ∀ c ∈ ds, c.isDigit = true) : isCanonicalL labL n = true := by
  unfold isCanonicalL
  have hsp : stripPre labL (n.map Char.toLower) = some (ds ++ ".jpg".data) := by
    rw [stripPre_eq_some]
    exact hdec
  rw [hsp]
  have hss : stripSuf ".jpg".data (ds ++ ".jpg".data) = some ds := by
    rw [stripSuf_eq_some]
  show (match stripSuf ".jpg".data (ds ++ ".jpg".data) with
    | none => false
    | some ds => !ds.isEmpty && ds.all Char.isDigit) = true
  rw [hss]
  show (!ds.isEmpty && ds.all Char.isDigit) = true
  rw [Bool.and_eq_true]
  constructor
  · cases ds with
    | nil => cases hne rfl
    | cons a as => rfl
  · rw [List.all_eq_true]
    exact hdig

theorem parse_canonical {labL n : Name} (hlab : ∀ c ∈ labL, c.isDigit = false)
    (hcan : isCanonicalL labL n = true) :
    ∃ ds, n.map Char.toLower = labL ++ (ds ++ ".jpg".data) ∧ ds ≠ [] ∧
      (∀ c ∈ ds, c.isDigit = true) ∧ firstDigits n = ds ∧ hasDigit n = true := by
  obtain ⟨ds, hdec, hne, hdig⟩ := isCanonicalL_decomp hcan
  rw [List.map_eq_append_iff] at hdec
  obtain ⟨A, rest, hn, hA, hrest⟩ := hdec
  rw [List.map_eq_append_iff] at hrest
  obtain ⟨B, C, hrest2, hB, hC⟩ := hrest
  have hAnd : ∀ c ∈ A, c.isDigit = false := by
    intro c hcA
    have hmem : Char.toLower c ∈ labL := by
      rw [← hA]
      exact List.mem_map_of_mem _ hcA
    have h2 := hlab _ hmem
    rw [isDigit_toLower] at h2
    exact h2
  have hBd : ∀ c ∈ B, c.isDigit = true := by
    intro c hcB
    have hmem : Char.toLower c ∈ ds := by
      rw [← hB]
      exact List.mem_map_of_mem _ hcB
    have h2 := hdig _ hmem
    rw [isDigit_toLower] at h2
    exact h2
  have hBne : B ≠ [] := by
    intro h0
    rw [h0] at hB
    exact hne hB.symm
  have hBlower : B.map Char.toLower = B := by
    have h1 : ∀ c ∈ B, Char.toLower c = id c := fun c hc => toLower_of_isDigit (hBd c hc)
    rw [List.map_congr_left h1, List.map_id]
  have hBds : B = ds := by
    rw [← hB, hBlower]
  have hCd : ∀ c ∈ C.take 1, c.isDigit = false := by
    cases C with
    | nil => intro c hc; cases hc
    | cons c0 cs =>
      intro c hcC
      rw [List.take_succ_cons, List.take_zero] at hcC
      rw [List.mem_singleton] at hcC
      subst hcC
      rw [List.map_cons] at hC
      have hc0 : Char.toLower c = '.' := (List.cons.injEq _ _ _ _ ▸ hC).1
      have hdot : ('.' : Char).isDigit = false := by decide
      rw [← isDigit_toLower, hc0, hdot]
  subst hn hrest2
  refine ⟨ds, ?_, hne, hdig, ?_, ?_⟩
  · rw [List.map_append, List.map_append, hA, hB, hC]
  · rw [firstDigits_append_no_digit A (B ++ C) hAnd,
      firstDigits_digits_append B C hBne hBd hCd, hBds]
  · rw [hasDigit_of_append_digits hBne hBd]

/-! Parse facts about generated target names. -/

theorem firstNum_mkName {labL : Name} (hlab : ∀ c ∈ labL, c.isDigit = false) (k : Nat) :
    firstNum (mkName labL k) = some k := by
  have hre : mkName labL k = labL ++ (natToChars k ++ ".jpg".data) := by
    unfold mkName
    rw [List.append_assoc]
  have hBd : ∀ c ∈ natToChars k, c.isDigit = true := by
    have hall := natToChars_all_digits k
    rw [List.all_eq_true] at hall
    exact hall
  have hCd : ∀ c ∈ (".jpg".data : Name).take 1, c.isDigit = false := by decide
  unfold firstNum
  rw [hre, hasDigit_of_append_digits (natToChars_ne_nil k) hBd, if_pos rfl,
    firstDigits_append_no_digit labL _ hlab,
    firstDigits_digits_append _ _ (natToChars_ne_nil k) hBd hCd,
    digitsToNat_natToChars]

theorem labelJpgGlob_mkName (labL : Name) (k : Nat) :
    labelJpgGlob labL (mkName labL k) = true := by
  unfold labelJpgGlob
  have hsp : stripPre labL (mkName labL k) = some (natToChars k ++ ".jpg".data) := by
    rw [stripPre_eq_some]
    unfold mkName
    rw [List.append_assoc]
  rw [hsp]
  show hasSuffix ".jpg".data (natToChars k ++ ".jpg".data) = true
  rw [hasSuffix_iff]
  exact ⟨natToChars k, rfl⟩

theorem mkName_not_mem_of_ge {labL : Name} (hlab : ∀ c ∈ labL, c.isDigit = false)
    {fs : List Name} {k : Nat} (hk : convertNextNum labL fs ≤ k) :
    mkName labL k ∉ fs := by
  intro hmem
  have hmem2 : mkName labL k ∈ fs.filter (labelJpgGlob labL) := by
    rw [List.mem_filter]
    exact ⟨hmem, labelJpgGlob_mkName labL k⟩
  have hkmem : k ∈ (fs.filter (labelJpgGlob labL)).filterMap firstNum := by
    rw [List.mem_filterMap]
    exact ⟨mkName labL k, hmem2, firstNum_mkName hlab k⟩
  simp only [convertNextNum] at hk
  have hne : ((fs.filter (labelJpgGlob labL)).filterMap firstNum).isEmpty = false := by
    rw [List.isEmpty_eq_false_iff_exists_mem]
    exact ⟨k, hkmem⟩
  rw [hne] at hk
  simp at hk
  have := le_listMax_of_mem hkmem
  omega

/-! Step equations and invariants of the rename loop. -/

theorem renameStep_vanished {labL src : Name} {st : RenState} {m : Nat}
    (h : src ∉ st.fs) :
    renameStep labL (st, m) src
      = ({ st with skippedVanished := st.skippedVanished ++ [src] }, m) := by
  simp [renameStep, h]

theorem renameStep_collision {labL src : Name} {st : RenState} {m : Nat}
    (h1 : src ∈ st.fs) (h2 : mkName labL (m + 1) ∈ st.fs) :
    renameStep labL (st, m) src
      = ({ st with skippedCollision := st.skippedCollision ++ [src] }, m + 1) := by
  simp [renameStep, h1, h2]

theorem renameStep_renamed {labL src : Name} {st : RenState} {m : Nat}
    (h1 : src ∈ st.fs) (h2 : mkName labL (m + 1) ∉ st.fs) :
    renameStep labL (st, m) src
      = ({ st with
            fs := st.fs.erase src ++ [mkName labL (m + 1)],
            renamed := st.renamed ++ [(src, mkName labL (m + 1))] }, m + 1) := by
  simp [renameStep, h1, h2]

theorem renameLoop_cons (labL s : Name) (t : List Name) (acc : RenState × Nat) :
    renameLoop labL (s :: t) acc = renameLoop labL t (renameStep labL acc s) := rfl

theorem renameLoop_preserves {labL : Name} :
    ∀ (srcs : List Name) (st : RenState) (m : Nat) (x : Name),
      x ∈ st.fs → (∀ s ∈ srcs, x ≠ s) →
      x ∈ (renameLoop labL srcs (st, m)).1.fs := by
  intro srcs
  induction srcs with
  | nil => intro st m x hx _; exact hx
  | cons s t ih =>
    intro st m x hx hne
    have hxs : x ≠ s := hne s (by simp)
    rw [renameLoop_cons]
    have hrest : ∀ z ∈ t, x ≠ z := fun z hz => hne z (by simp [hz])
    by_cases h1 : s ∈ st.fs
    · by_cases h2 : mkName labL (m + 1) ∈ st.fs
      · rw [renameStep_collision h1 h2]
        exact ih _ _ x hx hrest
      · rw [renameStep_renamed h1 h2]
        refine ih _ _ x ?_ hrest
        rw [List.mem_append]
        exact Or.inl ((List.mem_erase_of_ne hxs).mpr hx)
    · rw [renameStep_vanished h1]
      exact ih _ _ x hx hrest

theorem renameLoop_provenance {labL : Name} :
    ∀ (srcs : List Name) (st : RenState) (m : Nat) (p : Name × Name),
      p ∈ (renameLoop labL srcs (st, m)).1.renamed →
      p ∈ st.renamed ∨ (p.1 ∈ srcs ∧ ∃ k, m < k ∧ p.2 = mkName labL k) := by
  intro srcs
  induction srcs with
  | nil => intro st m p hp; exact Or.inl hp
  | cons s t ih =>
    intro st m p hp
    rw [renameLoop_cons] at hp
    by_cases h1 : s ∈ st.fs
    · by_cases h2 : mkName labL (m + 1) ∈ st.fs
      · rw [renameStep_collision h1 h2] at hp
        rcases ih _ _ _ hp with h | ⟨hmem, k, hk, hpk⟩
        · exact Or.inl h
        · exact Or.inr ⟨by simp [hmem], k, by omega, hpk⟩
      · rw [renameStep_renamed h1 h2] at hp
        rcases ih _ _ _ hp with h | ⟨hmem, k, hk, hpk⟩
        · rw [List.mem_append] at h
          rcases h with h | h
          · exact Or.inl h
          · rw [List.mem_singleton] at h
            subst h
            exact Or.inr ⟨by simp, m + 1, by omega, rfl⟩
        · exact Or.inr ⟨by simp [hmem], k, by omega, hpk⟩
    · rw [renameStep_vanished h1] at hp
      rcases ih _ _ _ hp with h | ⟨hmem, k, hk, hpk⟩
      · exact Or.inl h
      · exact Or.inr ⟨by simp [hmem], k, by omega, hpk⟩

theorem renameLoop_nodup {labL : Name} :
    ∀ (srcs : List Name) (st : RenState) (m : Nat),
      st.fs.Nodup → (renameLoop labL srcs (st, m)).1.fs.Nodup := by
  intro srcs
  induction srcs with
  | nil => intro st m h; exact h
  | cons s t ih =>
    intro st m hnd
    rw [renameLoop_cons]
    by_cases h1 : s ∈ st.fs
    · by_cases h2 : mkName labL (m + 1) ∈ st.fs
      · rw [renameStep_collision h1 h2]
        exact ih _ _ hnd
      · rw [renameStep_renamed h1 h2]
        refine ih _ _ ?_
        refine (hnd.erase s).append (List.nodup_singleton _) ?_
        intro a ha hb
        rw [List.mem_singleton] at hb
        subst hb
        exact h2 (List.mem_of_mem_erase ha)
    · rw [renameStep_vanished h1]
      exact ih _ _ hnd

theorem renameFolder_eq (lab : Name) (scanFs liveFs : List Name) :
    renameFolder lab scanFs liveFs = renameLoop (lab.map Char.toLower)
      (sortNames ((scanFs.filter jpgGlob).filter
        (fun n => !isCanonicalL (lab.map Char.toLower) n)))
      (⟨liveFs, [], [], []⟩, renameMaxNum (lab.map Char.toLower) scanFs) := rfl

/-! Specification-side (claim C2) definitions of the starting sequence
number, written from the claim's words, to compare against the code's
computations. -/

/-- Specification-side definition (claim C2's words): the digit-suffix of a
canonically-named file (`<label-lowercased><digits>.jpg`, matched
case-insensitively), `none` for any other name. -/
def specCanonSuffix (labL n : Name) : Option Nat :=
  match stripPre labL (n.map Char.toLower) with
  | none => none
  | some r =>
    match stripSuf ".jpg".data r with
    | none => none
    | some ds => if !ds.isEmpty && ds.all Char.isDigit then some (digitsToNat ds) else none

/-- Specification-side definition (claim C2's words): one past the maximum
canonical suffix among the folder's files, or 1 when no canonical file
exists. -/
def specCanonNext (labL : Name) (fs : List Name) : Nat :=
  match (fs.filterMap (specCanonSuffix labL)).max? with
  | none => 1
  | some M => M + 1

/-- Specification-side definition (amended claim C2, rename pass): as
`specCanonNext`, but over the files the rename pass globs
(`*.jpg` or `*.JPG`). -/
def specRenameNext (labL : Name) (fs : List Name) : Nat :=
  match ((fs.filter jpgGlob).filterMap (specCanonSuffix labL)).max? with
  | none => 1
  | some M => M + 1

/-- Specification-side definition (amended claim C2, convert pass): one past
the maximum first-digit-run among files matching `<label-lowercased>*.jpg`,
or 1 when no such file has a digit. -/
def specConvertNext (labL : Name) (fs : List Name) : Nat :=
  match ((fs.filter (labelJpgGlob labL)).filterMap firstNum).max? with
  | none => 1
  | some M => M + 1

theorem specCanonSuffix_eq {labL : Name} (hlab : ∀ c ∈ labL, c.isDigit = false)
    (n : Name) :
    specCanonSuffix labL n
      = if isCanonicalL labL n = true then some (digitsToNat (firstDigits n))
        else none := by
  by_cases hc : isCanonicalL labL n = true
  · rw [if_pos hc]
    obtain ⟨ds, hdec, hne, hdig, hfd, _⟩ := parse_canonical hlab hc
    unfold specCanonSuffix
    have hsp : stripPre labL (n.map Char.toLower) = some (ds ++ ".jpg".data) :=
      stripPre_eq_some.mpr hdec
    rw [hsp]
    show (match stripSuf ".jpg".data (ds ++ ".jpg".data) with
      | none => none
      | some ds =>
        if !ds.isEmpty && ds.all Char.isDigit then some (digitsToNat ds) else none)
      = some (digitsToNat (firstDigits n))
    have hss : stripSuf ".jpg".data (ds ++ ".jpg".data) = some ds :=
      stripSuf_eq_some.mpr rfl
    rw [hss]
    show (if !ds.isEmpty && ds.all Char.isDigit then some (digitsToNat ds) else none)
      = some (digitsToNat (firstDigits n))
    have hcond : (!ds.isEmpty && ds.all Char.isDigit) = true := by
      rw [Bool.and_eq_true]
      constructor
      · cases ds with
        | nil => cases hne rfl
        | cons a as => rfl
      · rw [List.all_eq_true]
        exact hdig
    rw [if_pos hcond, hfd]
  · rw [if_neg hc]
    unfold specCanonSuffix
    cases hsp : stripPre labL (n.map Char.toLower) with
    | none => rfl
    | some r =>
      show (match stripSuf ".jpg".data r with
        | none => none
        | some ds =>
          if !ds.isEmpty && ds.all Char.isDigit then some (digitsToNat ds) else none)
        = none
      cases hss : stripSuf ".jpg".data r with
      | none => rfl
      | some ds =>
        show (if !ds.isEmpty && ds.all Char.isDigit then some (digitsToNat ds) else none)
          = none
        by_cases hcond : (!ds.isEmpty && ds.all Char.isDigit) = true
        · exfalso
          apply hc
          unfold isCanonicalL
          rw [hsp]
          show (match stripSuf ".jpg".data r with
            | none => false
            | some ds => !ds.isEmpty && ds.all Char.isDigit) = true
          rw [hss]
          exact hcond
        · rw [if_neg hcond]

theorem filterMap_specCanonSuffix {labL : Name} (hlab : ∀ c ∈ labL, c.isDigit = false)
    (l : List Name) :
    l.filterMap (specCanonSuffix labL)
      = (l.filter (isCanonicalL labL)).map (fun n => digitsToNat (firstDigits n)) := by
  induction l with
  | nil => rfl
  | cons n t ih =>
    by_cases hc : isCanonicalL labL n = true
    · rw [List.filterMap_cons, specCanonSuffix_eq hlab n, if_pos hc]
      rw [List.filter_cons_of_pos hc, List.map_cons, ih]
    · have hcf : isCanonicalL labL n = false := by
        rw [← Bool.not_eq_true]
        exact hc
      rw [List.filterMap_cons, specCanonSuffix_eq hlab n, if_neg hc]
      rw [List.filter_cons_of_neg (by rw [hcf]; exact Bool.false_ne_true), ih]

theorem renameNext_eq_spec {labL : Name} (hlab : ∀ c ∈ labL, c.isDigit = false)
    (fs : List Name) :
    renameMaxNum labL fs + 1 = specRenameNext labL fs := by
  unfold renameMaxNum specRenameNext
  rw [filterMap_specCanonSuffix hlab]
  cases hmax : (((fs.filter jpgGlob).filter (isCanonicalL labL)).map
      (fun n => digitsToNat (firstDigits n))).max? with
  | none =>
    rw [List.max?_eq_none_iff] at hmax
    rw [hmax]
    rfl
  | some M =>
    rw [listMax_eq_of_max? hmax]

theorem convertNext_eq_spec (labL : Name) (fs : List Name) :
    convertNextNum labL fs = specConvertNext labL fs := by
  simp only [convertNextNum, specConvertNext]
  cases hmax : ((fs.filter (labelJpgGlob labL)).filterMap firstNum).max? with
  | none =>
    rw [List.max?_eq_none_iff] at hmax
    rw [hmax]
    rfl
  | some M =>
    have hne : ((fs.filter (labelJpgGlob labL)).filterMap firstNum).isEmpty = false := by
      cases hl : (fs.filter (labelJpgGlob labL)).filterMap firstNum with
      | nil =>
        rw [hl] at hmax
        simp [List.max?] at hmax
      | cons a as => rfl
    rw [hne, if_neg Bool.false_ne_true, listMax_eq_of_max? hmax]

/-! Claim theorems. -/

/-- Claim C1: for a root whose Good folder holds exactly `IMG_001.HEIC` and a
pre-existing `good1.jpg`, the convert pass with deletion enabled returns
`(converted, deleted, errors) = (1, 1, 0)` and leaves the folder with exactly
`good1.jpg` and `good2.jpg`; the rename pass then changes nothing, and no
HEIC file remains. -/
theorem claim_C1 :
    convert_and_rename_heic_to_jpg
        ⟨some ["IMG_001.HEIC".data, "good1.jpg".data], none, none⟩ true
        (fun _ => true) (fun _ => false)
      = (⟨some ["good1.jpg".data, "good2.jpg".data], none, none⟩, 1, 1, 0)
    ∧ rename_jpg_files ⟨some ["good1.jpg".data, "good2.jpg".data], none, none⟩
      = ⟨some ["good1.jpg".data, "good2.jpg".data], none, none⟩
    ∧ ["good1.jpg".data, "good2.jpg".data].filter heicGlob = [] := by
  refine ⟨by decide, by decide, by decide⟩

/-- Claim C2 counterexample: with the single existing file `good_extra7.jpg`
(no canonical file at all), the convert pass starts numbering at 8, not at 1
as a scan of canonically-named files would: its starting number is taken from
the first digit run of every `good*.jpg` file, canonical or not. -/
theorem claim_C2_counterexample :
    convertNextNum "good".data ["good_extra7.jpg".data] = 8
    ∧ specCanonNext "good".data ["good_extra7.jpg".data] = 1
    ∧ convertNextNum "good".data ["good_extra7.jpg".data]
        ≠ specCanonNext "good".data ["good_extra7.jpg".data] := by
  refine ⟨by decide, by decide, by decide⟩

/-- Claim C2 (amended): the rename pass starts one past the maximum
case-insensitive canonical suffix among the `*.jpg` / `*.JPG` files (or at 1
when none exists), while the convert pass starts one past the maximum first
digit run among `<label-lowercased>*.jpg` files (or at 1 when none has a
digit); for both, gaps are ignored, so existing suffixes 1, 3, 4 give next
number 5. -/
theorem claim_C2_amended (labL : Name) (hlab : ∀ c ∈ labL, c.isDigit = false)
    (fs : List Name) :
    renameMaxNum labL fs + 1 = specRenameNext labL fs
    ∧ convertNextNum labL fs = specConvertNext labL fs
    ∧ renameMaxNum "good".data
        ["good1.jpg".data, "good3.jpg".data, "good4.jpg".data] + 1 = 5
    ∧ convertNextNum "good".data
        ["good1.jpg".data, "good3.jpg".data, "good4.jpg".data] = 5 :=
  ⟨renameNext_eq_spec hlab fs, convertNext_eq_spec labL fs, by decide, by decide⟩

/-- Witness for the amended claim C2 at the label `good` and a folder holding
`GOOD2.JPG` (case-insensitively canonical) and `IMG_1.jpg`. -/
theorem claim_C2_amended_witness :
    renameMaxNum "good".data ["GOOD2.JPG".data, "IMG_1.jpg".data] + 1
        = specRenameNext "good".data ["GOOD2.JPG".data, "IMG_1.jpg".data]
    ∧ convertNextNum "good".data ["GOOD2.JPG".data, "IMG_1.jpg".data]
        = specConvertNext "good".data ["GOOD2.JPG".data, "IMG_1.jpg".data]
    ∧ renameMaxNum "good".data
        ["good1.jpg".data, "good3.jpg".data, "good4.jpg".data] + 1 = 5
    ∧ convertNextNum "good".data
        ["good1.jpg".data, "good3.jpg".data, "good4.jpg".data] = 5 :=
  claim_C2_amended "good".data (by decide) ["GOOD2.JPG".data, "IMG_1.jpg".data]

/-- Claim C3: when the target name computed for a source file already exists,
the rename loop skips that source (leaving it in place and logging it), the
consumed number is never assigned to another file of the run, the folder
contents are unchanged by the skip, and the remaining files are processed
exactly as they would be from the same folder state — no other file is
skipped as a consequence. -/
theorem claim_C3 (labL : Name) (fs : List Name) (R : List (Name × Name))
    (V K : List Name) (m : Nat) (s : Name) (rest : List Name)
    (hs : s ∈ fs) (hcol : mkName labL (m + 1) ∈ fs) (hsr : s ∉ rest) :
    renameLoop labL (s :: rest) (⟨fs, R, V, K⟩, m)
      = renameLoop labL rest (⟨fs, R, V, K ++ [s]⟩, m + 1)
    ∧ s ∈ (renameLoop labL (s :: rest) (⟨fs, R, V, K⟩, m)).1.fs
    ∧ ∀ p ∈ (renameLoop labL (s :: rest) (⟨fs, R, V, K⟩, m)).1.renamed,
        p ∈ R ∨ (p.1 ≠ s ∧ p.2 ≠ mkName labL (m + 1)) := by
  have hstep : renameLoop labL (s :: rest) (⟨fs, R, V, K⟩, m)
      = renameLoop labL rest (⟨fs, R, V, K ++ [s]⟩, m + 1) := by
    rw [renameLoop_cons, renameStep_collision hs hcol]
  refine ⟨hstep, ?_, ?_⟩
  · rw [hstep]
    exact renameLoop_preserves rest _ _ s hs (fun z hz heq => hsr (heq ▸ hz))
  · intro p hp
    rw [hstep] at hp
    rcases renameLoop_provenance rest _ _ p hp with h | ⟨hmem, k, hk, hpk⟩
    · exact Or.inl h
    · refine Or.inr ⟨fun heq => hsr (heq ▸ hmem), ?_⟩
      rw [hpk]
      intro heq
      have := mkName_inj heq
      omega

/-- Witness for claim C3: `good5.jpg` already exists, the source `IMG_5.jpg`
would receive suffix 5, is skipped, and nothing else happens. -/
theorem claim_C3_witness :
    renameLoop "good".data ["IMG_5.jpg".data]
        (⟨["IMG_5.jpg".data, "good5.jpg".data], [], [], []⟩, 4)
      = renameLoop "good".data []
          (⟨["IMG_5.jpg".data, "good5.jpg".data], [], [], ["IMG_5.jpg".data]⟩, 5)
    ∧ "IMG_5.jpg".data ∈ (renameLoop "good".data ["IMG_5.jpg".data]
        (⟨["IMG_5.jpg".data, "good5.jpg".data], [], [], []⟩, 4)).1.fs
    ∧ ∀ p ∈ (renameLoop "good".data ["IMG_5.jpg".data]
        (⟨["IMG_5.jpg".data, "good5.jpg".data], [], [], []⟩, 4)).1.renamed,
        p ∈ ([] : List (Name × Name))
          ∨ (p.1 ≠ "IMG_5.jpg".data ∧ p.2 ≠ mkName "good".data 5) :=
  claim_C3 "good".data ["IMG_5.jpg".data, "good5.jpg".data] [] [] [] 4
    "IMG_5.jpg".data [] (by decide) (by decide) (by decide)

/-- Claim C7: a source file that no longer exists when its rename is
attempted is skipped without error: the folder, the performed renames and
the counter are unchanged, the skip is logged as vanished, the loop
continues with the remaining files, and the vanished file never appears
among the performed renames. -/
theorem claim_C7 (labL : Name) (fs : List Name) (R : List (Name × Name))
    (V K : List Name) (m : Nat) (s : Name) (rest : List Name)
    (hv : s ∉ fs) (hsr : s ∉ rest) :
    renameLoop labL (s :: rest) (⟨fs, R, V, K⟩, m)
      = renameLoop labL rest (⟨fs, R, V ++ [s], K⟩, m)
    ∧ ∀ p ∈ (renameLoop labL (s :: rest) (⟨fs, R, V, K⟩, m)).1.renamed,
        p ∈ R ∨ p.1 ≠ s := by
  have hstep : renameLoop labL (s :: rest) (⟨fs, R, V, K⟩, m)
      = renameLoop labL rest (⟨fs, R, V ++ [s], K⟩, m) := by
    rw [renameLoop_cons, renameStep_vanished hv]
  refine ⟨hstep, ?_⟩
  intro p hp
  rw [hstep] at hp
  rcases renameLoop_provenance rest _ _ p hp with h | ⟨hmem, k, hk, hpk⟩
  · exact Or.inl h
  · exact Or.inr (fun heq => hsr (heq ▸ hmem))

/-- Witness for claim C7: `IMG_9.jpg` was seen by the scan but is gone at
action time; it is skipped silently with nothing renamed. -/
theorem claim_C7_witness :
    renameLoop "good".data ["IMG_9.jpg".data] (⟨["good1.jpg".data], [], [], []⟩, 1)
      = renameLoop "good".data []
          (⟨["good1.jpg".data], [], ["IMG_9.jpg".data], []⟩, 1)
    ∧ ∀ p ∈ (renameLoop "good".data ["IMG_9.jpg".data]
        (⟨["good1.jpg".data], [], [], []⟩, 1)).1.renamed,
        p ∈ ([] : List (Name × Name)) ∨ p.1 ≠ "IMG_9.jpg".data :=
  claim_C7 "good".data ["good1.jpg".data] [] [] [] 1 "IMG_9.jpg".data []
    (by decide) (by decide)

/-! Per-directory counting at the top level. -/

/-- Count of HEIC-globbed files of an optional class folder satisfying `p`;
a missing folder counts 0. -/
def dirHeicCount (p : Name → Bool) : Option (List Name) → Nat
  | none => 0
  | some fs => (fs.filter heicGlob).countP p

theorem convertDir_counts (lab : Name) (delete : Bool) (ok vanish : Name → Bool) :
    ∀ o : Option (List Name),
      (convertDir lab delete ok vanish o).2.1 = dirHeicCount (fun h => ok h) o
      ∧ (convertDir lab delete ok vanish o).2.2.1
          = dirHeicCount (fun h => delete && (ok h && !vanish h)) o
      ∧ (convertDir lab delete ok vanish o).2.2.2
          = dirHeicCount (fun h => !ok h || (delete && vanish h)) o := by
  intro o
  cases o with
  | none => exact ⟨rfl, rfl, rfl⟩
  | some fs =>
    obtain ⟨h1, h2, h3⟩ := convertFolder_counts lab delete ok vanish fs
    exact ⟨h1, h2, h3⟩

/-- Claim C4: the convert pass always runs to completion and returns the
aggregate triple: over the three class folders, `converted` counts exactly
the HEIC files whose decode/encode succeeds, `deleted` exactly the
successfully converted files whose original was still there to unlink (and
only with deletion enabled), and `errors` exactly the files whose
decode/encode failed or whose original vanished before the unlink — every
per-file failure is tallied and never escapes. -/
theorem claim_C4 (root : Root) (delete : Bool) (ok vanish : Name → Bool) :
    (convert_and_rename_heic_to_jpg root delete ok vanish).2
      = (dirHeicCount (fun h => ok h) root.good
           + dirHeicCount (fun h => ok h) root.bad
           + dirHeicCount (fun h => ok h) root.ugly,
         dirHeicCount (fun h => delete && (ok h && !vanish h)) root.good
           + dirHeicCount (fun h => delete && (ok h && !vanish h)) root.bad
           + dirHeicCount (fun h => delete && (ok h && !vanish h)) root.ugly,
         dirHeicCount (fun h => !ok h || (delete && vanish h)) root.good
           + dirHeicCount (fun h => !ok h || (delete && vanish h)) root.bad
           + dirHeicCount (fun h => !ok h || (delete && vanish h)) root.ugly) := by
  obtain ⟨g1, g2, g3⟩ := convertDir_counts GoodLab delete ok vanish root.good
  obtain ⟨b1, b2, b3⟩ := convertDir_counts BadLab delete ok vanish root.bad
  obtain ⟨u1, u2, u3⟩ := convertDir_counts UglyLab delete ok vanish root.ugly
  simp only [convert_and_rename_heic_to_jpg]
  rw [g1, g2, g3, b1, b2, b3, u1, u2, u3]

theorem dirHeicCount_deleted_le (delete : Bool) (ok vanish : Name → Bool)
    (o : Option (List Name)) :
    dirHeicCount (fun h => delete && (ok h && !vanish h)) o
      ≤ dirHeicCount (fun h => ok h) o := by
  cases o with
  | none => exact Nat.le_refl 0
  | some fs =>
    apply List.countP_mono_left
    intro x _ hx
    rw [Bool.and_eq_true] at hx
    rw [Bool.and_eq_true] at hx
    exact hx.2.1

theorem dirHeicCount_false (o : Option (List Name)) :
    dirHeicCount (fun _ => false) o = 0 := by
  cases o with
  | none => rfl
  | some fs => simp [dirHeicCount]

/-- Claim C9: the returned triple `(converted, deleted, errors)` consists of
non-negative counts, `deleted ≤ converted` always holds, and `deleted = 0`
whenever `delete_originals` is false. -/
theorem claim_C9 (root : Root) (delete : Bool) (ok vanish : Name → Bool) :
    0 ≤ (convert_and_rename_heic_to_jpg root delete ok vanish).2.1
    ∧ 0 ≤ (convert_and_rename_heic_to_jpg root delete ok vanish).2.2.1
    ∧ 0 ≤ (convert_and_rename_heic_to_jpg root delete ok vanish).2.2.2
    ∧ (convert_and_rename_heic_to_jpg root delete ok vanish).2.2.1
        ≤ (convert_and_rename_heic_to_jpg root delete ok vanish).2.1
    ∧ (delete = false →
        (convert_and_rename_heic_to_jpg root delete ok vanish).2.2.1 = 0) := by
  obtain ⟨g1, g2, _⟩ := convertDir_counts GoodLab delete ok vanish root.good
  obtain ⟨b1, b2, _⟩ := convertDir_counts BadLab delete ok vanish root.bad
  obtain ⟨u1, u2, _⟩ := convertDir_counts UglyLab delete ok vanish root.ugly
  have hc : (convert_and_rename_heic_to_jpg root delete ok vanish).2.1
      = dirHeicCount (fun h => ok h) root.good
        + dirHeicCount (fun h => ok h) root.bad
        + dirHeicCount (fun h => ok h) root.ugly := by
    simp only [convert_and_rename_heic_to_jpg]
    rw [g1, b1, u1]
  have hd : (convert_and_rename_heic_to_jpg root delete ok vanish).2.2.1
      = dirHeicCount (fun h => delete && (ok h && !vanish h)) root.good
        + dirHeicCount (fun h => delete && (ok h && !vanish h)) root.bad
        + dirHeicCount (fun h => delete && (ok h && !vanish h)) root.ugly := by
    simp only [convert_and_rename_heic_to_jpg]
    rw [g2, b2, u2]
  refine ⟨Nat.zero_le _, Nat.zero_le _, Nat.zero_le _, ?_, ?_⟩
  · rw [hc, hd]
    have l1 := dirHeicCount_deleted_le delete ok vanish root.good
    have l2 := dirHeicCount_deleted_le delete ok vanish root.bad
    have l3 := dirHeicCount_deleted_le delete ok vanish root.ugly
    omega
  · intro hdel
    subst hdel
    rw [hd]
    have hz : (fun h => false && (ok h && !vanish h)) = (fun _ : Name => false) := by
      funext h
      rw [Bool.false_and]
    rw [hz, dirHeicCount_false, dirHeicCount_false, dirHeicCount_false]

/-- Witness for claim C9 at a concrete root with deletion disabled. -/
theorem claim_C9_witness :
    0 ≤ (convert_and_rename_heic_to_jpg ⟨some ["IMG_001.HEIC".data], none, none⟩
        false (fun _ => true) (fun _ => false)).2.1
    ∧ 0 ≤ (convert_and_rename_heic_to_jpg ⟨some ["IMG_001.HEIC".data], none, none⟩
        false (fun _ => true) (fun _ => false)).2.2.1
    ∧ 0 ≤ (convert_and_rename_heic_to_jpg ⟨some ["IMG_001.HEIC".data], none, none⟩
        false (fun _ => true) (fun _ => false)).2.2.2
    ∧ (convert_and_rename_heic_to_jpg ⟨some ["IMG_001.HEIC".data], none, none⟩
        false (fun _ => true) (fun _ => false)).2.2.1
        ≤ (convert_and_rename_heic_to_jpg ⟨some ["IMG_001.HEIC".data], none, none⟩
            false (fun _ => true) (fun _ => false)).2.1
    ∧ (false = false →
        (convert_and_rename_heic_to_jpg ⟨some ["IMG_001.HEIC".data], none, none⟩
            false (fun _ => true) (fun _ => false)).2.2.1 = 0) :=
  claim_C9 ⟨some ["IMG_001.HEIC".data], none, none⟩ false
    (fun _ => true) (fun _ => false)

/-- Claim C10: the rename pass never renames an already-canonical file — no
performed rename has a canonical source, and every canonical file present at
action time is still present afterwards — and, because each rename target is
checked for existence immediately beforehand, no rename overwrites an
existing file: duplicate-free folder contents stay duplicate-free. -/
theorem claim_C10 (lab : Name) (scanFs liveFs : List Name) :
    (∀ p ∈ (renameFolder lab scanFs liveFs).1.renamed,
        isCanonicalL (lab.map Char.toLower) p.1 = false)
    ∧ (∀ f ∈ liveFs, isCanonicalL (lab.map Char.toLower) f = true →
        f ∈ (renameFolder lab scanFs liveFs).1.fs)
    ∧ (liveFs.Nodup → (renameFolder lab scanFs liveFs).1.fs.Nodup) := by
  rw [renameFolder_eq]
  refine ⟨?_, ?_, ?_⟩
  · intro p hp
    rcases renameLoop_provenance _ _ _ p hp with h | ⟨hmem, _, _, _⟩
    · cases h
    · rw [mem_sortNames, List.mem_filter] at hmem
      have h2 := hmem.2
      cases hb : isCanonicalL (lab.map Char.toLower) p.1
      · rfl
      · rw [hb] at h2
        cases h2
  · intro f hf hcan
    apply renameLoop_preserves _ _ _ f hf
    intro z hz heq
    rw [mem_sortNames, List.mem_filter] at hz
    have h2 := hz.2
    rw [← heq, hcan] at h2
    cases h2
  · intro hnd
    exact renameLoop_nodup _ _ _ hnd

/-- Witness for claim C10 at a concrete folder holding one canonical and one
legacy file. -/
theorem claim_C10_witness :
    (∀ p ∈ (renameFolder "Good".data ["IMG_1.jpg".data, "good3.jpg".data]
        ["IMG_1.jpg".data, "good3.jpg".data]).1.renamed,
        isCanonicalL ("Good".data.map Char.toLower) p.1 = false)
    ∧ (∀ f ∈ ["IMG_1.jpg".data, "good3.jpg".data],
        isCanonicalL ("Good".data.map Char.toLower) f = true →
        f ∈ (renameFolder "Good".data ["IMG_1.jpg".data, "good3.jpg".data]
          ["IMG_1.jpg".data, "good3.jpg".data]).1.fs)
    ∧ (["IMG_1.jpg".data, "good3.jpg".data].Nodup →
        (renameFolder "Good".data ["IMG_1.jpg".data, "good3.jpg".data]
          ["IMG_1.jpg".data, "good3.jpg".data]).1.fs.Nodup) :=
  claim_C10 "Good".data ["IMG_1.jpg".data, "good3.jpg".data]
    ["IMG_1.jpg".data, "good3.jpg".data]

/-! Shape of a fully successful convert run of one folder. -/

theorem filter_heic_clean_nil (fs : List Name) (labL : Name) (next N : Nat) :
    (fs.filter (fun n => !heicGlob n)
      ++ (List.range N).map (fun i => mkName labL (next + i))).filter heicGlob = [] := by
  rw [List.filter_append]
  have ha : (fs.filter (fun n => !heicGlob n)).filter heicGlob = [] := by
    rw [List.filter_eq_nil_iff]
    intro a ha
    rw [List.mem_filter] at ha
    have h2 := ha.2
    cases h : heicGlob a
    · simp [h]
    · rw [h] at h2
      cases h2
  have hb : ((List.range N).map (fun i => mkName labL (next + i))).filter heicGlob
      = [] := by
    rw [List.filter_eq_nil_iff]
    intro a hmem
    rw [List.mem_map] at hmem
    obtain ⟨i, _, hi⟩ := hmem
    rw [← hi, heicGlob_mkName]
    simp
  rw [ha, hb]
  rfl

theorem convertFolder_clean (lab : Name) (ok vanish : Name → Bool) (fs : List Name)
    (hlab : ∀ c ∈ lab.map Char.toLower, c.isDigit = false)
    (hok : ∀ h ∈ fs.filter heicGlob, ok h = true ∧ vanish h = false)
    (hnd : fs.Nodup) :
    convertFolder lab true ok vanish fs
      = ⟨fs.filter (fun n => !heicGlob n)
            ++ (List.range (fs.filter heicGlob).length).map
                (fun i => mkName (lab.map Char.toLower)
                  (convertNextNum (lab.map Char.toLower) fs + i)),
          (sortNames (fs.filter heicGlob)).zip
            ((List.range (fs.filter heicGlob).length).map
              (fun i => mkName (lab.map Char.toLower)
                (convertNextNum (lab.map Char.toLower) fs + i))),
          (fs.filter heicGlob).length, (fs.filter heicGlob).length, 0⟩ := by
  simp only [convertFolder]
  split
  next hemp =>
    have hnil : fs.filter heicGlob = [] := by
      have hp := sortNames_perm (fs.filter heicGlob)
      rw [List.isEmpty_iff] at hemp
      rw [hemp] at hp
      exact hp.symm.eq_nil
    have hself : fs.filter (fun n => !heicGlob n) = fs := by
      rw [List.filter_eq_self]
      intro a hmem
      have := List.filter_eq_nil_iff.mp hnil a hmem
      cases h : heicGlob a
      · rfl
      · exact absurd h this
    rw [hnil, hself]
    simp
  next hemp =>
    have hmem : ∀ h ∈ sortNames (fs.filter heicGlob),
        ok h = true ∧ vanish h = false ∧ heicGlob h = true := by
      intro h hh
      rw [mem_sortNames] at hh
      obtain ⟨h1, h2⟩ := hok h hh
      rw [List.mem_filter] at hh
      exact ⟨h1, h2, hh.2⟩
    have hfree : ∀ k, convertNextNum (lab.map Char.toLower) fs ≤ k →
        mkName (lab.map Char.toLower) k ∉ fs :=
      fun k hk => mkName_not_mem_of_ge hlab hk
    rw [convertLoop_clean (lab.map Char.toLower) ok vanish
      (sortNames (fs.filter heicGlob)) fs [] 0 0 0
      (convertNextNum (lab.map Char.toLower) fs) hmem hfree]
    have hlen : (sortNames (fs.filter heicGlob)).length = (fs.filter heicGlob).length :=
      (sortNames_perm (fs.filter heicGlob)).length_eq
    rw [hlen, foldl_erase_heics hnd]
    rw [List.nil_append, Nat.zero_add]

/-- Claim C5 counterexample: with deletion disabled, a second convert run on
the state produced by a first run (with no file added in between) converts
the still-present HEIC file again: the second run reports converted = 1, not
0, and the canonical file set changes (`good2.jpg` appears). -/
theorem claim_C5_counterexample :
    (convertFolder "Good".data false (fun _ => true) (fun _ => false)
        ((convertFolder "Good".data false (fun _ => true) (fun _ => false)
          ["IMG_001.HEIC".data]).fs)).converted = 1
    ∧ "good2.jpg".data ∈ (convertFolder "Good".data false (fun _ => true) (fun _ => false)
        ((convertFolder "Good".data false (fun _ => true) (fun _ => false)
          ["IMG_001.HEIC".data]).fs)).fs
    ∧ "good2.jpg".data ∉ (convertFolder "Good".data false (fun _ => true) (fun _ => false)
        ["IMG_001.HEIC".data]).fs := by
  refine ⟨by decide, by decide, by decide⟩

/-- Claim C5 (amended): with deletion enabled, every conversion succeeding
and no external interference, the convert pass is idempotent: a second run
on the folder contents produced by the first finds no HEIC file, leaves the
contents (in particular the canonical file set) unchanged, and reports
converted = 0, deleted = 0, errors = 0. -/
theorem claim_C5_amended (lab : Name) (ok vanish : Name → Bool) (fs : List Name)
    (hlab : ∀ c ∈ lab.map Char.toLower, c.isDigit = false)
    (hok : ∀ h ∈ fs.filter heicGlob, ok h = true ∧ vanish h = false)
    (hnd : fs.Nodup) :
    convertFolder lab true ok vanish ((convertFolder lab true ok vanish fs).fs)
      = ⟨(convertFolder lab true ok vanish fs).fs, [], 0, 0, 0⟩ := by
  have h1 := convertFolder_clean lab ok vanish fs hlab hok hnd
  have hnoheic : ((convertFolder lab true ok vanish fs).fs).filter heicGlob = [] := by
    rw [h1]
    exact filter_heic_clean_nil fs (lab.map Char.toLower)
      (convertNextNum (lab.map Char.toLower) fs) (fs.filter heicGlob).length
  generalize hX : (convertFolder lab true ok vanish fs).fs = X at hnoheic ⊢
  simp only [convertFolder]
  have hsorted : sortNames (X.filter heicGlob) = [] := by
    rw [hnoheic]
    rfl
  rw [hsorted]
  rfl

/-- Witness for the amended claim C5: one HEIC file, all conversions
succeed, deletion enabled; the second run is a no-op. -/
theorem claim_C5_amended_witness :
    convertFolder "Good".data true (fun _ => true) (fun _ => false)
        ((convertFolder "Good".data true (fun _ => true) (fun _ => false)
          ["IMG_001.HEIC".data, "good1.jpg".data]).fs)
      = ⟨(convertFolder "Good".data true (fun _ => true) (fun _ => false)
          ["IMG_001.HEIC".data, "good1.jpg".data]).fs, [], 0, 0, 0⟩ :=
  claim_C5_amended "Good".data (fun _ => true) (fun _ => false)
    ["IMG_001.HEIC".data, "good1.jpg".data] (by decide) (by decide) (by decide)

/-- Claim C6 counterexample: a folder holding one HEIC file and
`good_x7.jpg` — which is not canonically named, so the folder has no
canonical file — yields `good8.jpg`, not `good1.jpg`: the starting number
also counts digit runs of non-canonical `good*.jpg` files. -/
theorem claim_C6_counterexample :
    (convertFolder "Good".data true (fun _ => true) (fun _ => false)
        ["good_x7.jpg".data, "IMG_001.HEIC".data]).fs
      = ["good_x7.jpg".data, "good8.jpg".data]
    ∧ isCanonicalL "good".data "good_x7.jpg".data = false
    ∧ "good1.jpg".data ∉ (convertFolder "Good".data true (fun _ => true) (fun _ => false)
        ["good_x7.jpg".data, "IMG_001.HEIC".data]).fs := by
  refine ⟨by decide, by decide, by decide⟩

/-- Claim C6 (amended): for a class folder containing N HEIC files, deletion
enabled and all conversions succeeding, provided no existing
`<label-lowercased>*.jpg` file contains a digit (in particular no canonical
file exists), the convert pass creates exactly `<label>1.jpg` through
`<label>N.jpg`, assigns them to the HEIC sources in lexicographic order, and
leaves zero HEIC files in the folder. -/
theorem claim_C6_amended (lab : Name) (ok vanish : Name → Bool) (fs : List Name)
    (hlab : ∀ c ∈ lab.map Char.toLower, c.isDigit = false)
    (hok : ∀ h ∈ fs.filter heicGlob, ok h = true ∧ vanish h = false)
    (hnd : fs.Nodup)
    (hno : ∀ n ∈ fs, labelJpgGlob (lab.map Char.toLower) n = true →
      hasDigit n = false) :
    (convertFolder lab true ok vanish fs).fs
      = fs.filter (fun n => !heicGlob n)
          ++ (List.range (fs.filter heicGlob).length).map
              (fun i => mkName (lab.map Char.toLower) (1 + i))
    ∧ (convertFolder lab true ok vanish fs).convLog
      = (sortNames (fs.filter heicGlob)).zip
          ((List.range (fs.filter heicGlob).length).map
            (fun i => mkName (lab.map Char.toLower) (1 + i)))
    ∧ (convertFolder lab true ok vanish fs).fs.filter heicGlob = []
    ∧ (convertFolder lab true ok vanish fs).converted = (fs.filter heicGlob).length
    ∧ (convertFolder lab true ok vanish fs).deleted = (fs.filter heicGlob).length
    ∧ (convertFolder lab true ok vanish fs).errors = 0 := by
  have hnext : convertNextNum (lab.map Char.toLower) fs = 1 := by
    simp only [convertNextNum]
    have hnil : (fs.filter (labelJpgGlob (lab.map Char.toLower))).filterMap firstNum
        = [] := by
      rw [List.filterMap_eq_nil_iff]
      intro a ha
      rw [List.mem_filter] at ha
      have hd := hno a ha.1 ha.2
      unfold firstNum
      rw [hd]
      rfl
    rw [hnil]
    rfl
  have h1 := convertFolder_clean lab ok vanish fs hlab hok hnd
  rw [hnext] at h1
  rw [h1]
  refine ⟨rfl, rfl, ?_, rfl, rfl, rfl⟩
  exact filter_heic_clean_nil fs (lab.map Char.toLower) 1 (fs.filter heicGlob).length

/-- Witness for the amended claim C6: two HEIC files and one digit-free
legacy jpg; the run creates `good1.jpg` and `good2.jpg` in lexicographic
source order. -/
theorem claim_C6_amended_witness :
    (convertFolder "Good".data true (fun _ => true) (fun _ => false)
        ["IMG_B.HEIC".data, "IMG_A.HEIC".data, "photo.jpg".data]).fs
      = ["IMG_B.HEIC".data, "IMG_A.HEIC".data, "photo.jpg".data].filter
            (fun n => !heicGlob n)
          ++ (List.range (["IMG_B.HEIC".data, "IMG_A.HEIC".data,
              "photo.jpg".data].filter heicGlob).length).map
              (fun i => mkName ("Good".data.map Char.toLower) (1 + i))
    ∧ (convertFolder "Good".data true (fun _ => true) (fun _ => false)
        ["IMG_B.HEIC".data, "IMG_A.HEIC".data, "photo.jpg".data]).convLog
      = (sortNames (["IMG_B.HEIC".data, "IMG_A.HEIC".data,
            "photo.jpg".data].filter heicGlob)).zip
          ((List.range (["IMG_B.HEIC".data, "IMG_A.HEIC".data,
              "photo.jpg".data].filter heicGlob).length).map
            (fun i => mkName ("Good".data.map Char.toLower) (1 + i)))
    ∧ (convertFolder "Good".data true (fun _ => true) (fun _ => false)
        ["IMG_B.HEIC".data, "IMG_A.HEIC".data, "photo.jpg".data]).fs.filter heicGlob
        = []
    ∧ (convertFolder "Good".data true (fun _ => true) (fun _ => false)
        ["IMG_B.HEIC".data, "IMG_A.HEIC".data, "photo.jpg".data]).converted
        = (["IMG_B.HEIC".data, "IMG_A.HEIC".data,
            "photo.jpg".data].filter heicGlob).length
    ∧ (convertFolder "Good".data true (fun _ => true) (fun _ => false)
        ["IMG_B.HEIC".data, "IMG_A.HEIC".data, "photo.jpg".data]).deleted
        = (["IMG_B.HEIC".data, "IMG_A.HEIC".data,
            "photo.jpg".data].filter heicGlob).length
    ∧ (convertFolder "Good".data true (fun _ => true) (fun _ => false)
        ["IMG_B.HEIC".data, "IMG_A.HEIC".data, "photo.jpg".data]).errors = 0 :=
  claim_C6_amended "Good".data (fun _ => true) (fun _ => false)
    ["IMG_B.HEIC".data, "IMG_A.HEIC".data, "photo.jpg".data]
    (by decide) (by decide) (by decide) (by decide)

/-- Claim C8 counterexample: a HEIC original that vanishes between the
successful save and the deletion is counted as an error — the deletion is
attempted without an existence re-check, its failure is caught by the
per-file handler — rather than being skipped silently as a pre-mutation
re-check would do. -/
theorem claim_C8_counterexample :
    (convertFolder "Good".data true (fun _ => true)
        (fun n => decide (n = "IMG_001.HEIC".data)) ["IMG_001.HEIC".data]).errors = 1
    ∧ (convertFolder "Good".data true (fun _ => true)
        (fun n => decide (n = "IMG_001.HEIC".data)) ["IMG_001.HEIC".data]).deleted = 0
    ∧ (convertFolder "Good".data true (fun _ => true)
        (fun n => decide (n = "IMG_001.HEIC".data)) ["IMG_001.HEIC".data]).converted
        = 1 := by
  refine ⟨by decide, by decide, by decide⟩

/-- Claim C8 (amended): only the rename in `rename_jpg_files` is immediately
preceded by a re-check that the file to be mutated still exists — a vanished
source is skipped with no mutation and no number consumed; the HEIC deletion
in `convert_and_rename_heic_to_jpg` has no such re-check: when the original
vanished before the unlink, the per-file handler counts an error, the
conversion stays counted, and nothing is recorded as deleted. -/
theorem claim_C8_amended (labL : Name) (st : RenState) (m : Nat) (s : Name)
    (rest : List Name) (ok vanish : Name → Bool) (sc : ConvState) (mc : Nat)
    (h : Name) (hv : s ∉ st.fs) (hok : ok h = true) (hvan : vanish h = true) :
    renameLoop labL (s :: rest) (st, m)
      = renameLoop labL rest
          ({ st with skippedVanished := st.skippedVanished ++ [s] }, m)
    ∧ (convertStep labL true ok vanish (sc, mc) h).1.errors = sc.errors + 1
    ∧ (convertStep labL true ok vanish (sc, mc) h).1.converted = sc.converted + 1
    ∧ (convertStep labL true ok vanish (sc, mc) h).1.deleted = sc.deleted := by
  refine ⟨?_, ?_, ?_, ?_⟩
  · rw [renameLoop_cons, renameStep_vanished hv]
  · simp [convertStep, hok, hvan]
  · simp [convertStep, hok, hvan]
  · simp [convertStep, hok, hvan]

/-- Witness for the amended claim C8 at concrete states. -/
theorem claim_C8_amended_witness :
    renameLoop "good".data ["IMG_9.jpg".data] (⟨["good1.jpg".data], [], [], []⟩, 3)
      = renameLoop "good".data []
          (⟨["good1.jpg".data], [], [] ++ ["IMG_9.jpg".data], []⟩, 3)
    ∧ (convertStep "good".data true (fun _ => true)
        (fun n => decide (n = "IMG_001.HEIC".data))
        (⟨["IMG_001.HEIC".data], [], 0, 0, 0⟩, 1) "IMG_001.HEIC".data).1.errors = 0 + 1
    ∧ (convertStep "good".data true (fun _ => true)
        (fun n => decide (n = "IMG_001.HEIC".data))
        (⟨["IMG_001.HEIC".data], [], 0, 0, 0⟩, 1) "IMG_001.HEIC".data).1.converted
        = 0 + 1
    ∧ (convertStep "good".data true (fun _ => true)
        (fun n => decide (n = "IMG_001.HEIC".data))
        (⟨["IMG_001.HEIC".data], [], 0, 0, 0⟩, 1) "IMG_001.HEIC".data).1.deleted = 0 :=
  claim_C8_amended "good".data ⟨["good1.jpg".data], [], [], []⟩ 3 "IMG_9.jpg".data
    [] (fun _ => true) (fun n => decide (n = "IMG_001.HEIC".data))
    ⟨["IMG_001.HEIC".data], [], 0, 0, 0⟩ 1 "IMG_001.HEIC".data
    (by decide) (by decide) (by decide)
